import Mathlib

/-!
Shallow embedding of the title-normalization and fuzzy-matching core of the
youtube-to-local-automation scripts.  Python strings are modelled as
`List Char` (Unicode code points).  Casing is modelled on the ASCII range
(`str.lower` lowers `A`-`Z` and `re.IGNORECASE` folds through the same map);
`\s` is modelled by the ASCII whitespace characters.  A Python
`ZeroDivisionError` is modelled by `Option.none`.  The regex substitutions of
the source are embedded as an executable left-to-right scanner whose phrase
vocabularies are data, mirroring the alternation lists of the source patterns.
-/

namespace YTM

/-- Model of Python `str.lower` on a single character (ASCII range). -/
def lowerChar (c : Char) : Char :=
  if 65 ≤ c.toNat ∧ c.toNat ≤ 90 then Char.ofNat (c.toNat + 32) else c

/-- Model of Python `str.lower`. -/
def pyLower (s : List Char) : List Char := s.map lowerChar

/-- Model of the regex class `\s` (ASCII whitespace). -/
def isWs (c : Char) : Bool :=
  c.toNat = 32 || c.toNat = 9 || c.toNat = 10 || c.toNat = 13 ||
  c.toNat = 11 || c.toNat = 12

/-- Strip characters satisfying `p` from both ends of a list. -/
def stripEnds (p : Char → Bool) (s : List Char) : List Char :=
  ((s.dropWhile p).reverse.dropWhile p).reverse

/-- Model of Python `str.strip()` (strip whitespace at both ends). -/
def pyStrip (s : List Char) : List Char := stripEnds isWs s

/-- Model of Python `str.strip(cs)` for an explicit character set `cs`. -/
def stripChars (cs : List Char) (s : List Char) : List Char :=
  stripEnds cs.contains s

/-- Replace every maximal run of characters satisfying `p` by the single
character `out`; embeds substitutions such as `re.sub(r"[\s-]+", " ", s)`
and `re.sub(r"_+", "_", s)`. -/
def collapseRuns (p : Char → Bool) (out : Char) : List Char → List Char
  | [] => []
  | [c] => if p c then [out] else [c]
  | c₁ :: c₂ :: r =>
    if p c₁ then
      if p c₂ then collapseRuns p out (c₂ :: r)
      else out :: collapseRuns p out (c₂ :: r)
    else c₁ :: collapseRuns p out (c₂ :: r)

/-- Case-insensitive "starts with" (the `re.IGNORECASE` literal match). -/
def ciStartsWith (s pat : List Char) : Bool :=
  (s.take pat.length).map lowerChar == pat

/-- Token of a literal regex piece: a literal word, mandatory whitespace
(`\s+`), optional whitespace (`\s*`), an optional trailing `s` (`s?`), or a
digit run (`\d+`). -/
inductive Tok where
  | lit (w : List Char)
  | ws1
  | ws0
  | optS
  | digits1
deriving Repr

/-- Match a sequence of tokens at the head of `s`, returning the remainder. -/
def matchToks : List Tok → List Char → Option (List Char)
  | [], s => some s
  | .lit w :: ts, s =>
    if ciStartsWith s w then matchToks ts (s.drop w.length) else none
  | .ws1 :: ts, s =>
    match s with
    | [] => none
    | c :: r => if isWs c then matchToks ts (r.dropWhile isWs) else none
  | .ws0 :: ts, s => matchToks ts (s.dropWhile isWs)
  | .optS :: ts, s =>
    match s with
    | [] => matchToks ts []
    | c :: r => if lowerChar c = 's' then matchToks ts r else matchToks ts (c :: r)
  | .digits1 :: ts, s =>
    match s with
    | [] => none
    | c :: r => if c.isDigit then matchToks ts (r.dropWhile Char.isDigit) else none

/-- Ordered regex alternation: first alternative that matches wins. -/
def matchAlts : List (List Tok) → List Char → Option (List Char)
  | [], _ => none
  | a :: rest, s =>
    match matchToks a s with
    | some r => some r
    | none => matchAlts rest s

/-- Consume the closing `)` or `]` together with trailing `\s*`. -/
def closeTail : List Char → Option (List Char)
  | [] => none
  | c :: r => if c = ')' ∨ c = ']' then some (r.dropWhile isWs) else none

/-- Match the noise-phrase pattern
`\s*(\(|\[)(official\s+)?(ALT)(\)|\])\s*` at the head of `s`. -/
def matchNoiseAt (alts : List (List Tok)) (s : List Char) : Option (List Char) :=
  match s.dropWhile isWs with
  | [] => none
  | b :: r2 =>
    if b = '(' ∨ b = '[' then
      let offBranch : Option (List Char) :=
        if ciStartsWith r2 "official".data then
          match r2.drop 8 with
          | [] => none
          | c :: r =>
            if isWs c then (matchAlts alts (r.dropWhile isWs)).bind closeTail
            else none
        else none
      match offBranch with
      | some r => some r
      | none => (matchAlts alts r2).bind closeTail
    else none

/-- Match the bitrate pattern `\s*\(BODY\)\s*` at the head of `s`. -/
def matchParenAt (body : List Tok) (s : List Char) : Option (List Char) :=
  match s.dropWhile isWs with
  | [] => none
  | b :: r2 =>
    if b = '(' then
      match matchToks (body ++ [.lit ")".data]) r2 with
      | some r => some (r.dropWhile isWs)
      | none => none
    else none

/-- The two pattern shapes that occur in the source's `re.sub` calls. -/
inductive Matcher where
  | noise (alts : List (List Tok))
  | paren (body : List Tok)

def runMatch : Matcher → List Char → Option (List Char)
  | .noise alts, s => matchNoiseAt alts s
  | .paren body, s => matchParenAt body s

/-- Fuelled left-to-right global substitution (the semantics of `re.sub`):
at each position try the pattern; on a match emit `repl` and continue after
the match, otherwise keep the character and move one position right. -/
def subAllFuel (M : Matcher) (repl : List Char) : Nat → List Char → List Char
  | 0, s => s
  | fuel + 1, s =>
    match s with
    | [] => []
    | c :: r =>
      match runMatch M (c :: r) with
      | some rest => repl ++ subAllFuel M repl fuel rest
      | none => c :: subAllFuel M repl fuel r

def subAll (M : Matcher) (repl : List Char) (s : List Char) : List Char :=
  subAllFuel M repl s.length s

/-- Does `s` end with `suf`? -/
def endsWithL (s suf : List Char) : Bool :=
  suf.length ≤ s.length && s.drop (s.length - suf.length) == suf

/-- Embeds `re.sub(r"\.(mp3|m4a|opus)$", "", s)` on an already lowercased
string. -/
def removeExt (s : List Char) : List Char :=
  if endsWithL s ".mp3".data then s.take (s.length - 4)
  else if endsWithL s ".m4a".data then s.take (s.length - 4)
  else if endsWithL s ".opus".data then s.take (s.length - 5)
  else s

/-- Body of the bitrate pattern `TAG\d+k` (e.g. `mp3_\d+k`). -/
def bitBody (tag : String) : List Tok := [.lit tag.data, .digits1, .lit "k".data]

/-- Alternation list of the noise regex in
`find_missing_songs.clean_title_for_comparison` (the pattern there spells the
F1 phrase with the mojibake `Â®`, lowercased `â®`). -/
def cleanAlts : List (List Tok) :=
  [ [.lit "audio".data],
    [.lit "video".data],
    [.lit "lyric".data, .optS],
    [.lit "visualizer".data],
    [.lit "music".data, .ws1, .lit "video".data],
    [.lit "hd".data],
    [.lit "hq".data],
    [.lit "from".data, .ws1, .lit "f1".data, .ws0, .lit "â®".data, .ws0,
     .lit "the".data, .ws1, .lit "movie".data] ]

/-- Alternation list of the combined noise/bitrate regex in
`normalize_text_for_comparison` (both scripts that define it). -/
def normAlts : List (List Tok) :=
  [ [.lit "audio".data],
    [.lit "video".data],
    [.lit "lyric".data, .optS],
    [.lit "visualizer".data],
    [.lit "music".data, .ws1, .lit "video".data],
    [.lit "hd".data],
    [.lit "hq".data],
    [.lit "from".data, .ws1, .lit "f1".data, .ws0, .lit "®".data, .ws0,
     .lit "the".data, .ws1, .lit "movie".data],
    [.lit "mp3_".data, .digits1, .lit "k".data],
    [.lit "m4a_".data, .digits1, .lit "k".data],
    [.lit "mp4_".data, .digits1, .lit "k".data] ]

/-- Alternation list of the noise regex in
`youtube_to_m3u.clean_display_title`; it has no `audio` alternative. -/
def displayAlts : List (List Tok) :=
  [ [.lit "video".data],
    [.lit "lyric".data, .optS],
    [.lit "visualizer".data],
    [.lit "music".data, .ws1, .lit "video".data],
    [.lit "hd".data],
    [.lit "hq".data],
    [.lit "from".data, .ws1, .lit "f1".data, .ws0, .lit "®".data, .ws0,
     .lit "the".data, .ws1, .lit "movie".data] ]

/-- Characters kept by `re.sub(r"[^a-z0-9\s-]", " ", s)`. -/
def cleanStep4Keep (c : Char) : Bool :=
  (97 ≤ c.toNat && c.toNat ≤ 122) || (48 ≤ c.toNat && c.toNat ≤ 57) ||
  isWs c || c.toNat = 45

def cleanStep4Char (c : Char) : Char := if cleanStep4Keep c then c else ' '

/-- The class `[\s-]` collapsed by step 5 of `clean_title_for_comparison`. -/
def wsH (c : Char) : Bool := isWs c || c.toNat = 45

/-- Embedding of `find_missing_songs.clean_title_for_comparison`. -/
def cleanTitleForComparison (s : List Char) : List Char :=
  let c1 := pyLower s
  let c2 := removeExt c1
  let c3 := subAll (.paren (bitBody "mp3_")) [] c2
  let c4 := subAll (.paren (bitBody "m4a_")) [] c3
  let c5 := subAll (.paren (bitBody "mp4_")) [] c4
  let c6 := subAll (.noise cleanAlts) [' '] c5
  let c7 := c6.map cleanStep4Char
  let c8 := collapseRuns wsH ' ' c7
  pyStrip c8

/-- The punctuation class of `normalize_text_for_comparison`
`[.,!?;:'"“”‘’`~@#$%^&*()_+={}\[\]\\|<>/]`. -/
def punctChars : List Char :=
  [ '.', ',', '!', '?', ';', ':', Char.ofNat 39, Char.ofNat 34, '“', '”',
    '‘', '’', Char.ofNat 96, '~', '@', '#', '$', '%', '^', '&', '*', '(',
    ')', '_', '+', '=', Char.ofNat 123, Char.ofNat 125, '[', ']', '\\',
    '|', '<', '>', '/' ]

def punctN (c : Char) : Bool := punctChars.contains c

/-- Embedding of `normalize_text_for_comparison`
(`youtube_to_m3u_HighChance_LowPrecision` and `youtube_to_m3u_alternative`
define it identically). -/
def normalizeTextForComparison (s : List Char) : List Char :=
  let n1 := pyLower s
  let n2 := subAll (.noise normAlts) [] n1
  let n3 := n2.map fun c => if punctN c then ' ' else c
  let n4 := collapseRuns isWs ' ' n3
  stripChars [' ', '-'] n4

/-- Embedding of `youtube_to_m3u.clean_display_title`. -/
def cleanDisplayTitle (s : List Char) : List Char :=
  let d1 := subAll (.noise displayAlts) [] s
  let d2 := subAll (.paren (bitBody "mp3_")) [] d1
  stripChars [' ', '-', '_'] d2

/-- The character class `[\\/:*?"<>|',&]` of `sanitize_filename_for_path`. -/
def badPathChars : List Char :=
  ['\\', '/', ':', '*', '?', Char.ofNat 34, '<', '>', '|', Char.ofNat 39,
   ',', '&']

/-- Embedding of `youtube_to_m3u.sanitize_filename_for_path`. -/
def sanitizeFilenameForPath (title : List Char) : List Char :=
  let s1 := title.map fun c => if badPathChars.contains c then '_' else c
  let s2 := collapseRuns (fun c => c = '_') '_' s1
  let s3 := stripChars [' ', '_'] s2
  if title.head? = some '_' ∧ s3.head? ≠ some '_' then '_' :: s3 else s3

/-- Number of equal-position character pairs produced by
`itertools.zip_longest` (a fill value never equals a character, so only the
common prefix can contribute). -/
def countIdentical : List Char → List Char → Nat
  | a :: o, b :: m => (if a = b then 1 else 0) + countIdentical o m
  | _, _ => 0

/-- Model of Python `round` (banker's rounding) on an exact rational. -/
def pyRound (q : ℚ) : ℤ :=
  if q - (⌊q⌋ : ℚ) < 1/2 then ⌊q⌋
  else if (1 : ℚ)/2 < q - (⌊q⌋ : ℚ) then ⌊q⌋ + 1
  else if ⌊q⌋ % 2 = 0 then ⌊q⌋ else ⌊q⌋ + 1

/-- Integer-arithmetic evaluator for `pyRound (a / b)`; used to compute
scores on concrete inputs. -/
def pyRoundNat (a b : ℕ) : ℤ :=
  if 2 * (a % b) < b then ((a / b : ℕ) : ℤ)
  else if b < 2 * (a % b) then ((a / b : ℕ) : ℤ) + 1
  else if (a / b) % 2 = 0 then ((a / b : ℕ) : ℤ) else ((a / b : ℕ) : ℤ) + 1

/-- The value `round(identical/len(original)*100)` computed by
`findsimilarity`, defined when `original` is nonempty. -/
def simscore (original modified : List Char) : ℤ :=
  pyRound ((countIdentical original modified : ℚ) / (original.length : ℚ) * 100)

/-- Embedding of `findsimilarity` from `compare-songs.py` and
`find-removed-songs.py`; `none` models the `ZeroDivisionError` raised when
`original` is empty. -/
def findsimilarity (original modified : List Char) : Option (ℤ × List Char) :=
  if original.length = 0 then none
  else some (simscore original modified, modified)

/-- Index-based characterization of equal-position matches: positions past
the shorter string's end count as non-matches. -/
def posMatches (o m : List Char) : Nat :=
  (List.range (max o.length m.length)).countP fun i =>
    match o[i]?, m[i]? with
    | some a, some b => a == b
    | _, _ => false

/-- Fuelled model of Python `str.split()` (split on whitespace runs,
dropping empty fields). -/
def pySplitF : Nat → List Char → List (List Char)
  | 0, _ => []
  | _, [] => []
  | fuel + 1, c :: r =>
    if isWs c then pySplitF fuel r
    else (c :: r.takeWhile (fun x => !isWs x)) ::
      pySplitF fuel (r.dropWhile (fun x => !isWs x))

def pySplit (s : List Char) : List (List Char) := pySplitF s.length s

/-- Model of `set(s.split())`. -/
def tokensF (s : List Char) : Finset (List Char) := (pySplit s).toFinset

/-- Token-overlap score `len(q & t) / len(q)`. -/
def overlapScore (q t : Finset (List Char)) : ℚ :=
  ((q ∩ t).card : ℚ) / (q.card : ℚ)

/-- The lenient-scan loop of
`youtube_to_m3u_alternative.generate_m3u_playlist_with_matching`:
keep the best-scoring candidate whose score is at least 0.7, updating only
on a strict improvement. -/
def lenientFoldAux (qW : Finset (List Char)) :
    List (List Char × List Char) → ℚ × Option (List Char) → ℚ × Option (List Char)
  | [], st => st
  | kp :: rest, st =>
    let lw := tokensF kp.1
    let st' :=
      if lw ≠ ∅ then
        let sc := overlapScore qW lw
        if 7/10 ≤ sc ∧ st.1 < sc then (sc, some kp.2) else st
      else st
    lenientFoldAux qW rest st'

/-- Per-title matching of `generate_m3u_playlist_with_matching`: exact
normalized lookup first, then the lenient word-overlap scan. -/
def matchQuery (yt : List Char) (m : List (List Char × List Char)) :
    Option (List Char) :=
  match List.lookup yt m with
  | some p => some p
  | none =>
    let qW := tokensF yt
    if qW = ∅ then none
    else (lenientFoldAux qW m ((0 : ℚ), none)).2

/-- The lenient membership check of the `__main__` comparison loop of
`youtube_to_m3u_HighChance_LowPrecision` (first candidate with at least 70%
word overlap). -/
def foundLenient (yt : List Char) (refs : List (List Char)) : Bool :=
  let qW := tokensF yt
  if qW = ∅ then false
  else refs.any fun k =>
    let lw := tokensF k
    decide (lw ≠ ∅) && decide ((7 : ℚ)/10 ≤ overlapScore qW lw)

/-- One step of the best-match loop of `compare-songs.py`
(`if new_similarity[0] > original_similarity[0]`). -/
def bestStep (orig : List Char) (st : Option (ℤ × List Char)) (m : List Char) :
    Option (ℤ × List Char) :=
  match st, findsimilarity orig m with
  | some best, some new => if best.1 < new.1 then some new else some best
  | _, _ => none

/-- The best-match loop of `compare-songs.py`, starting from `[0, ""]`. -/
def bestOf (orig : List Char) (refs : List (List Char)) :
    Option (ℤ × List Char) :=
  refs.foldl (bestStep orig) (some (0, []))

/-- Path separator normalization `line.replace("\\", "/")`. -/
def slashNorm (s : List Char) : List Char :=
  s.map fun c => if c = '\\' then '/' else c

/-- `os.path.basename` on a `/`-normalized path. -/
def pathBasename (p : List Char) : List Char :=
  (p.reverse.takeWhile (fun c => c ≠ '/')).reverse

/-- One line of `parse_musicolet_m3u_for_local_files`. -/
def m3uStep (m : List (List Char × List Char)) (line : List Char) :
    List (List Char × List Char) :=
  let l := pyStrip line
  if l = [] then m
  else if "#EXTM3U".data.isPrefixOf l then m
  else if "#EXTINF:".data.isPrefixOf l then m
  else
    let path := slashNorm l
    let nf := normalizeTextForComparison (pathBasename path)
    if nf ≠ [] ∧ List.lookup nf m = none then m ++ [(nf, path)] else m

/-- Embedding of `parse_musicolet_m3u_for_local_files` over the stripped
lines of the input file. -/
def parseMusicoletM3U (lines : List (List Char)) :
    List (List Char × List Char) :=
  lines.foldl m3uStep []

/-- Characters that can appear in a `clean_title_for_comparison` result:
lowercase ASCII letters, digits, or a single space. -/
def goodCleanChar (c : Char) : Prop :=
  (97 ≤ c.toNat ∧ c.toNat ≤ 122) ∨ (48 ≤ c.toNat ∧ c.toNat ≤ 57) ∨ c = ' '

/-- Canonical form of `clean_title_for_comparison` outputs. -/
def canonicalC (s : List Char) : Prop :=
  (∀ c ∈ s, goodCleanChar c) ∧
  s.Chain' (fun a b => ¬(a = ' ' ∧ b = ' ')) ∧
  (∀ c, s.head? = some c → c ≠ ' ') ∧
  (∀ c, s.getLast? = some c → c ≠ ' ')

/-- Canonical form of `normalize_text_for_comparison` outputs. -/
def canonicalN (s : List Char) : Prop :=
  (∀ c ∈ s, lowerChar c = c) ∧
  (∀ c ∈ s, punctN c = false) ∧
  (∀ c ∈ s, isWs c = true → c = ' ') ∧
  s.Chain' (fun a b => ¬(isWs a = true ∧ isWs b = true)) ∧
  (∀ c, s.head? = some c → c ≠ ' ' ∧ c ≠ '-') ∧
  (∀ c, s.getLast? = some c → c ≠ ' ' ∧ c ≠ '-')

/-- The noise-phrase vocabulary shared by `clean_title_for_comparison` and
`clean_display_title` (every phrase except `audio` and the F1 phrase). -/
def sharedVocab : List String :=
  ["video", "lyrics", "lyric", "visualizer", "music video", "hd", "hq"]

/-! ### Arithmetic bridge lemmas -/

theorem pyRound_natCast_div (a b : ℕ) (hb : b ≠ 0) :
    pyRound ((a : ℚ) / (b : ℚ)) = pyRoundNat a b := by
  have hb0 : (0 : ℚ) < (b : ℚ) := by exact_mod_cast Nat.pos_of_ne_zero hb
  have hfloor : ⌊(a : ℚ) / (b : ℚ)⌋ = ((a / b : ℕ) : ℤ) := by
    exact_mod_cast Rat.floor_natCast_div_natCast a b
  have hdm : (b : ℚ) * ((a / b : ℕ) : ℚ) + ((a % b : ℕ) : ℚ) = (a : ℚ) := by
    exact_mod_cast congrArg (fun n : ℕ => (n : ℚ)) (Nat.div_add_mod a b)
  have hcast : ((((a / b : ℕ) : ℤ)) : ℚ) = ((a / b : ℕ) : ℚ) :=
    Int.cast_natCast _
  have hfrac : (a : ℚ) / (b : ℚ) - ((((a / b : ℕ) : ℤ)) : ℚ)
      = ((a % b : ℕ) : ℚ) / (b : ℚ) := by
    rw [hcast]
    field_simp
    linarith
  have h1 : (((a % b : ℕ) : ℚ) / (b : ℚ) < 1 / 2) ↔ (2 * (a % b) < b) := by
    rw [div_lt_div_iff₀ hb0 (by norm_num : (0 : ℚ) < 2), one_mul, mul_comm]
    norm_cast
  have h2 : ((1 : ℚ) / 2 < ((a % b : ℕ) : ℚ) / (b : ℚ)) ↔ (b < 2 * (a % b)) := by
    rw [div_lt_div_iff₀ (by norm_num : (0 : ℚ) < 2) hb0, one_mul, mul_comm]
    norm_cast
  have h3 : (((a / b : ℕ) : ℤ) % 2 = 0) ↔ ((a / b) % 2 = 0) := by
    constructor <;> intro h <;> omega
  unfold pyRound pyRoundNat
  rw [hfloor, hfrac]
  simp only [h1, h2, h3]

theorem simscore_eq (o m : List Char) (h : o.length ≠ 0) :
    simscore o m = pyRoundNat (100 * countIdentical o m) o.length := by
  unfold simscore
  have hq : (countIdentical o m : ℚ) / (o.length : ℚ) * 100
      = ((100 * countIdentical o m : ℕ) : ℚ) / (o.length : ℚ) := by
    push_cast
    ring
  rw [hq, pyRound_natCast_div _ _ h]

theorem countIdentical_self (s : List Char) : countIdentical s s = s.length := by
  induction s with
  | nil => rfl
  | cons a t ih => simp [countIdentical, ih, Nat.add_comm]

theorem simscore_self (s : List Char) (h : s.length ≠ 0) : simscore s s = 100 := by
  rw [simscore_eq s s h, countIdentical_self]
  unfold pyRoundNat
  have hpos : 0 < s.length := Nat.pos_of_ne_zero h
  rw [Nat.mul_mod_left, Nat.mul_div_cancel 100 hpos]
  simp [hpos]

theorem findsimilarity_self (s : List Char) (h : s ≠ []) :
    findsimilarity s s = some (100, s) := by
  have hl : s.length ≠ 0 := by
    have := List.length_pos.mpr h
    omega
  unfold findsimilarity
  rw [if_neg hl, simscore_self s hl]

/-! ### Character-level lemmas -/

theorem toNat_ofNat_valid (n : ℕ) (h : n < 55296) : (Char.ofNat n).toNat = n := by
  rw [Char.ofNat, dif_pos]
  · rfl
  · exact Or.inl h

theorem lowerChar_fix {c : Char} (h : ¬(65 ≤ c.toNat ∧ c.toNat ≤ 90)) :
    lowerChar c = c := if_neg h

theorem lowerChar_idem (c : Char) : lowerChar (lowerChar c) = lowerChar c := by
  by_cases h : 65 ≤ c.toNat ∧ c.toNat ≤ 90
  · have h2 : (Char.ofNat (c.toNat + 32)).toNat = c.toNat + 32 :=
      toNat_ofNat_valid _ (by omega)
    have hc : lowerChar c = Char.ofNat (c.toNat + 32) := if_pos h
    rw [hc, lowerChar, if_neg]
    rw [h2]
    omega
  · have hc : lowerChar c = c := if_neg h
    rw [hc]
    exact hc

/-! ### Suffix lemmas for the regex scanner -/

theorem dropWhile_suffix' (p : Char → Bool) (l : List Char) :
    l.dropWhile p <:+ l :=
  ⟨l.takeWhile p, List.takeWhile_append_dropWhile p l⟩

theorem mem_of_dropWhile {p : Char → Bool} {l : List Char} {c : Char}
    (h : c ∈ l.dropWhile p) : c ∈ l :=
  (dropWhile_suffix' p l).subset h

theorem matchToks_suffix :
    ∀ (ts : List Tok) (s r : List Char), matchToks ts s = some r → r <:+ s := by
  intro ts
  induction ts with
  | nil =>
    intro s r h
    simp only [matchToks, Option.some.injEq] at h
    exact h ▸ List.suffix_refl s
  | cons t ts ih =>
    intro s r h
    cases t with
    | lit w =>
      simp only [matchToks] at h
      split at h
      · exact (ih _ _ h).trans (List.drop_suffix _ _)
      · exact absurd h (by simp)
    | ws1 =>
      cases s with
      | nil => simp [matchToks] at h
      | cons a rs =>
        simp only [matchToks] at h
        split at h
        · exact ((ih _ _ h).trans (dropWhile_suffix' _ _)).trans (List.suffix_cons a rs)
        · exact absurd h (by simp)
    | ws0 =>
      simp only [matchToks] at h
      exact (ih _ _ h).trans (dropWhile_suffix' _ _)
    | optS =>
      cases s with
      | nil =>
        simp only [matchToks] at h
        exact ih _ _ h
      | cons a rs =>
        simp only [matchToks] at h
        split at h
        · exact (ih _ _ h).trans (List.suffix_cons a rs)
        · exact ih _ _ h
    | digits1 =>
      cases s with
      | nil => simp [matchToks] at h
      | cons a rs =>
        simp only [matchToks] at h
        split at h
        · exact ((ih _ _ h).trans (dropWhile_suffix' _ _)).trans (List.suffix_cons a rs)
        · exact absurd h (by simp)

theorem matchAlts_suffix :
    ∀ (alts : List (List Tok)) (s r : List Char),
      matchAlts alts s = some r → r <:+ s := by
  intro alts
  induction alts with
  | nil => intro s r h; simp [matchAlts] at h
  | cons a rest ih =>
    intro s r h
    simp only [matchAlts] at h
    cases hma : matchToks a s with
    | some r0 =>
      rw [hma] at h
      cases h
      exact matchToks_suffix _ _ _ hma
    | none =>
      rw [hma] at h
      exact ih _ _ h

theorem closeTail_suffix (s r : List Char) (h : closeTail s = some r) : r <:+ s := by
  cases s with
  | nil => simp [closeTail] at h
  | cons a rs =>
    simp only [closeTail] at h
    split at h
    · cases h
      exact (dropWhile_suffix' _ _).trans (List.suffix_cons a rs)
    · exact absurd h (by simp)

theorem matchNoiseAt_suffix (alts : List (List Tok)) (s r : List Char)
    (h : matchNoiseAt alts s = some r) : r <:+ s := by
  cases hdw : s.dropWhile isWs with
  | nil =>
    simp only [matchNoiseAt, hdw] at h
    exact absurd h (by simp)
  | cons b r2 =>
    simp only [matchNoiseAt, hdw] at h
    have hs : b :: r2 <:+ s := hdw ▸ dropWhile_suffix' isWs s
    have hr2 : r2 <:+ s := (List.suffix_cons b r2).trans hs
    have hfall : (matchAlts alts r2).bind closeTail = some r → r <:+ s := by
      intro hfb
      rcases Option.bind_eq_some.mp hfb with ⟨y, hy, hct⟩
      exact ((closeTail_suffix _ _ hct).trans (matchAlts_suffix _ _ _ hy)).trans hr2
    by_cases hb : b = '(' ∨ b = '['
    · rw [if_pos hb] at h
      by_cases hoff : ciStartsWith r2 "official".data = true
      · rw [if_pos hoff] at h
        cases hdrop : r2.drop 8 with
        | nil =>
          simp only [hdrop] at h
          exact hfall h
        | cons c8 r8 =>
          simp only [hdrop] at h
          by_cases hws : isWs c8 = true
          · rw [if_pos hws] at h
            cases hab : (matchAlts alts (r8.dropWhile isWs)).bind closeTail with
            | some r0 =>
              simp only [hab] at h
              cases h
              rcases Option.bind_eq_some.mp hab with ⟨y, hy, hct⟩
              have h4 : r8 <:+ r2.drop 8 := hdrop ▸ List.suffix_cons c8 r8
              exact (((closeTail_suffix _ _ hct).trans
                (matchAlts_suffix _ _ _ hy)).trans
                (dropWhile_suffix' _ _)).trans
                ((h4.trans (List.drop_suffix _ _)).trans hr2)
            | none =>
              simp only [hab] at h
              exact hfall h
          · rw [if_neg hws] at h
            exact hfall h
      · rw [if_neg hoff] at h
        exact hfall h
    · rw [if_neg hb] at h
      exact absurd h (by simp)

theorem matchParenAt_suffix (body : List Tok) (s r : List Char)
    (h : matchParenAt body s = some r) : r <:+ s := by
  cases hdw : s.dropWhile isWs with
  | nil =>
    simp only [matchParenAt, hdw] at h
    exact absurd h (by simp)
  | cons b r2 =>
    simp only [matchParenAt, hdw] at h
    have hs : b :: r2 <:+ s := hdw ▸ dropWhile_suffix' isWs s
    have hr2 : r2 <:+ s := (List.suffix_cons b r2).trans hs
    by_cases hb : b = '('
    · rw [if_pos hb] at h
      cases hmt : matchToks (body ++ [.lit ")".data]) r2 with
      | some y =>
        simp only [hmt] at h
        cases h
        exact ((dropWhile_suffix' _ _).trans (matchToks_suffix _ _ _ hmt)).trans hr2
      | none =>
        simp only [hmt] at h
        exact absurd h (by simp)
    · rw [if_neg hb] at h
      exact absurd h (by simp)

theorem runMatch_suffix (M : Matcher) (s r : List Char)
    (h : runMatch M s = some r) : r <:+ s := by
  cases M with
  | noise alts => exact matchNoiseAt_suffix alts s r h
  | paren body => exact matchParenAt_suffix body s r h

theorem subAllFuel_subset (M : Matcher) (repl : List Char) :
    ∀ (f : ℕ) (s : List Char), ∀ c ∈ subAllFuel M repl f s, c ∈ s ∨ c ∈ repl := by
  intro f
  induction f with
  | zero => intro s c hc; exact Or.inl hc
  | succ f ih =>
    intro s c hc
    cases s with
    | nil => simp [subAllFuel] at hc
    | cons a r =>
      rw [subAllFuel] at hc
      cases hrm : runMatch M (a :: r) with
      | some rest =>
        rw [hrm] at hc
        rcases List.mem_append.mp hc with hrep | hrec
        · exact Or.inr hrep
        · rcases ih rest c hrec with hin | hrep
          · exact Or.inl ((runMatch_suffix M _ _ hrm).subset hin)
          · exact Or.inr hrep
      | none =>
        rw [hrm] at hc
        rcases List.mem_cons.mp hc with rfl | hrec
        · exact Or.inl (List.mem_cons_self _ _)
        · rcases ih r c hrec with hin | hrep
          · exact Or.inl (List.mem_cons_of_mem _ hin)
          · exact Or.inr hrep

theorem subAll_subset (M : Matcher) (repl : List Char) (s : List Char) :
    ∀ c ∈ subAll M repl s, c ∈ s ∨ c ∈ repl :=
  subAllFuel_subset M repl s.length s

/-! ### No-match and identity lemmas for the scanner -/

theorem matchNoiseAt_none (alts : List (List Tok)) (s : List Char)
    (h : ∀ c ∈ s, c ≠ '(' ∧ c ≠ '[') : matchNoiseAt alts s = none := by
  cases hdw : s.dropWhile isWs with
  | nil => simp only [matchNoiseAt, hdw]
  | cons b r2 =>
    have hb : b ∈ s := (dropWhile_suffix' isWs s).subset
      (hdw ▸ List.mem_cons_self b r2)
    simp only [matchNoiseAt, hdw]
    have : ¬(b = '(' ∨ b = '[') := by
      rintro (rfl | rfl)
      · exact (h _ hb).1 rfl
      · exact (h _ hb).2 rfl
    simp [this]

theorem matchParenAt_none (body : List Tok) (s : List Char)
    (h : ∀ c ∈ s, c ≠ '(') : matchParenAt body s = none := by
  cases hdw : s.dropWhile isWs with
  | nil => simp only [matchParenAt, hdw]
  | cons b r2 =>
    have hb : b ∈ s := (dropWhile_suffix' isWs s).subset
      (hdw ▸ List.mem_cons_self b r2)
    simp only [matchParenAt, hdw]
    simp [h b hb]

theorem runMatch_none (M : Matcher) (s : List Char)
    (h : ∀ c ∈ s, c ≠ '(' ∧ c ≠ '[') : runMatch M s = none := by
  cases M with
  | noise alts => exact matchNoiseAt_none alts s h
  | paren body => exact matchParenAt_none body s fun c hc => (h c hc).1

theorem subAllFuel_id (M : Matcher) (repl : List Char) :
    ∀ (f : ℕ) (s : List Char), (∀ c ∈ s, c ≠ '(' ∧ c ≠ '[') →
      subAllFuel M repl f s = s := by
  intro f
  induction f with
  | zero => intro s _; rfl
  | succ f ih =>
    intro s h
    cases s with
    | nil => rfl
    | cons a r =>
      rw [subAllFuel, runMatch_none M _ h]
      rw [ih r fun c hc => h c (List.mem_cons_of_mem _ hc)]

theorem subAll_id (M : Matcher) (repl : List Char) (s : List Char)
    (h : ∀ c ∈ s, c ≠ '(' ∧ c ≠ '[') : subAll M repl s = s :=
  subAllFuel_id M repl s.length s h

theorem endsWithL_subset {s suf : List Char} (h : endsWithL s suf = true) :
    ∀ c ∈ suf, c ∈ s := by
  unfold endsWithL at h
  rw [Bool.and_eq_true] at h
  have heq : s.drop (s.length - suf.length) = suf := eq_of_beq h.2
  intro c hc
  exact List.mem_of_mem_drop (heq ▸ hc)

theorem removeExt_id {s : List Char} (hdot : ∀ c ∈ s, c ≠ '.') :
    removeExt s = s := by
  have h1 : ∀ suf : List Char, '.' ∈ suf → endsWithL s suf = false := by
    intro suf hd
    by_contra hne
    have ht : endsWithL s suf = true := by
      cases hb : endsWithL s suf
      · exact absurd hb hne
      · rfl
    exact hdot '.' (endsWithL_subset ht '.' hd) rfl
  unfold removeExt
  simp [h1 ".mp3".data (by decide), h1 ".m4a".data (by decide),
    h1 ".opus".data (by decide)]

/-! ### collapseRuns lemmas -/

theorem collapseRuns_mem (p : Char → Bool) (out : Char) :
    ∀ (s : List Char), ∀ c ∈ collapseRuns p out s,
      c = out ∨ (c ∈ s ∧ p c = false) := by
  intro s
  induction s with
  | nil => intro c hc; simp [collapseRuns] at hc
  | cons c₁ t ih =>
    cases t with
    | nil =>
      intro c hc
      by_cases h1 : p c₁ = true
      · simp [collapseRuns, h1] at hc
        exact Or.inl hc
      · simp [collapseRuns, h1] at hc
        subst hc
        exact Or.inr ⟨List.mem_cons_self _ _, by simpa using h1⟩
    | cons c₂ r =>
      intro c hc
      by_cases h1 : p c₁ = true
      · by_cases h2 : p c₂ = true
        · rw [collapseRuns, if_pos h1, if_pos h2] at hc
          rcases ih c hc with h | ⟨hm, hp⟩
          · exact Or.inl h
          · exact Or.inr ⟨List.mem_cons_of_mem _ hm, hp⟩
        · rw [collapseRuns, if_pos h1, if_neg h2] at hc
          rcases List.mem_cons.mp hc with rfl | hc'
          · exact Or.inl rfl
          · rcases ih c hc' with h | ⟨hm, hp⟩
            · exact Or.inl h
            · exact Or.inr ⟨List.mem_cons_of_mem _ hm, hp⟩
      · rw [collapseRuns, if_neg h1] at hc
        rcases List.mem_cons.mp hc with rfl | hc'
        · exact Or.inr ⟨List.mem_cons_self _ _, by simpa using h1⟩
        · rcases ih c hc' with h | ⟨hm, hp⟩
          · exact Or.inl h
          · exact Or.inr ⟨List.mem_cons_of_mem _ hm, hp⟩

theorem collapseRuns_head (p : Char → Bool) (out : Char) :
    ∀ (r : List Char) (c : Char),
      (collapseRuns p out (c :: r)).head? = some (if p c then out else c) := by
  intro r
  induction r with
  | nil =>
    intro c
    by_cases h : p c = true <;> simp [collapseRuns, h]
  | cons c₂ r ih =>
    intro c
    by_cases h1 : p c = true
    · by_cases h2 : p c₂ = true
      · rw [collapseRuns, if_pos h1, if_pos h2, ih c₂, if_pos h2, if_pos h1]
      · rw [collapseRuns, if_pos h1, if_neg h2, if_pos h1]
        rfl
    · rw [collapseRuns, if_neg h1, if_neg h1]
      rfl

theorem collapseRuns_chain' (p : Char → Bool) (out : Char) :
    ∀ (s : List Char),
      (collapseRuns p out s).Chain'
        (fun a b => ¬(p a = true ∧ p b = true)) := by
  intro s
  induction s with
  | nil => simp [collapseRuns]
  | cons c₁ t ih =>
    cases t with
    | nil =>
      by_cases h1 : p c₁ = true <;> simp [collapseRuns, h1]
    | cons c₂ r =>
      by_cases h1 : p c₁ = true
      · by_cases h2 : p c₂ = true
        · rw [collapseRuns, if_pos h1, if_pos h2]
          exact ih
        · rw [collapseRuns, if_pos h1, if_neg h2]
          rw [List.chain'_cons']
          refine ⟨?_, ih⟩
          intro y hy
          rw [collapseRuns_head p out r c₂, if_neg h2] at hy
          cases hy
          intro hcon
          exact h2 hcon.2
      · rw [collapseRuns, if_neg h1]
        rw [List.chain'_cons']
        refine ⟨?_, ih⟩
        intro y hy
        intro hcon
        exact h1 hcon.1

theorem collapseRuns_id (p : Char → Bool) (out : Char) :
    ∀ (s : List Char), (∀ c ∈ s, p c = true → c = out) →
      s.Chain' (fun a b => ¬(p a = true ∧ p b = true)) →
      collapseRuns p out s = s := by
  intro s
  induction s with
  | nil => intro _ _; rfl
  | cons c₁ t ih =>
    cases t with
    | nil =>
      intro hall _
      by_cases h1 : p c₁ = true
      · rw [collapseRuns, if_pos h1, hall c₁ (List.mem_cons_self _ _) h1]
      · rw [collapseRuns, if_neg h1]
    | cons c₂ r =>
      intro hall hch
      have hch2 : (c₂ :: r).Chain' (fun a b => ¬(p a = true ∧ p b = true)) :=
        hch.tail
      have hall2 : ∀ c ∈ c₂ :: r, p c = true → c = out := fun c hc =>
        hall c (List.mem_cons_of_mem _ hc)
      by_cases h1 : p c₁ = true
      · have h2 : p c₂ = false := by
          have := (List.chain'_cons.mp hch).1
          cases hb : p c₂
          · rfl
          · exact absurd ⟨h1, hb⟩ this
        rw [collapseRuns, if_pos h1, if_neg (by simp [h2]),
          hall c₁ (List.mem_cons_self _ _) h1, ih hall2 hch2]
      · rw [collapseRuns, if_neg h1, ih hall2 hch2]

/-! ### stripEnds lemmas -/

theorem head?_dropWhile_false (p : Char → Bool) :
    ∀ (l : List Char) (c : Char), (l.dropWhile p).head? = some c → p c = false := by
  intro l
  induction l with
  | nil => intro c h; simp at h
  | cons a t ih =>
    intro c h
    rw [List.dropWhile_cons] at h
    split at h
    · exact ih c h
    · cases h
      rename_i hpa
      simpa using hpa

theorem stripEnds_subset (p : Char → Bool) (s : List Char) :
    ∀ c ∈ stripEnds p s, c ∈ s := by
  intro c hc
  unfold stripEnds at hc
  rw [List.mem_reverse] at hc
  have h1 := mem_of_dropWhile hc
  rw [List.mem_reverse] at h1
  exact mem_of_dropWhile h1

theorem stripEnds_head (p : Char → Bool) (s : List Char) (c : Char)
    (h : (stripEnds p s).head? = some c) : p c = false := by
  unfold stripEnds at h
  have hpre : ((s.dropWhile p).reverse.dropWhile p).reverse <+: s.dropWhile p := by
    have h0 := List.reverse_prefix.mpr
      (dropWhile_suffix' p (s.dropWhile p).reverse)
    rwa [List.reverse_reverse] at h0
  rcases hpre with ⟨t, ht⟩
  cases hx : ((s.dropWhile p).reverse.dropWhile p).reverse with
  | nil => rw [hx] at h; simp at h
  | cons a u =>
    rw [hx] at h
    simp only [List.head?_cons, Option.some.injEq] at h
    rw [hx] at ht
    have hhead : (s.dropWhile p).head? = some a := by
      rw [← ht]
      rfl
    have hpa := head?_dropWhile_false p s a hhead
    rw [h] at hpa
    exact hpa

theorem stripEnds_getLast (p : Char → Bool) (s : List Char) (c : Char)
    (h : (stripEnds p s).getLast? = some c) : p c = false := by
  unfold stripEnds at h
  rw [List.getLast?_reverse] at h
  exact head?_dropWhile_false p _ c h

theorem chain'_of_suffix {R : Char → Char → Prop} {l₁ l₂ : List Char}
    (h : l₂.Chain' R) (hs : l₁ <:+ l₂) : l₁.Chain' R :=
  List.Chain'.suffix h hs

theorem stripEnds_chain' {R : Char → Char → Prop}
    (hsymm : ∀ a b, R a b → R b a) (p : Char → Bool) (s : List Char)
    (h : s.Chain' R) : (stripEnds p s).Chain' R := by
  unfold stripEnds
  have h1 : (s.dropWhile p).Chain' R := chain'_of_suffix h (dropWhile_suffix' p s)
  have h2 : (s.dropWhile p).reverse.Chain' R := by
    rw [List.chain'_reverse]
    exact h1.imp fun a b hab => hsymm a b hab
  have h3 : ((s.dropWhile p).reverse.dropWhile p).Chain' R :=
    chain'_of_suffix h2 (dropWhile_suffix' p _)
  rw [List.chain'_reverse]
  exact h3.imp fun a b hab => hsymm a b hab

theorem stripEnds_id (p : Char → Bool) (s : List Char)
    (hh : ∀ c, s.head? = some c → p c = false)
    (hl : ∀ c, s.getLast? = some c → p c = false) : stripEnds p s = s := by
  have h1 : s.dropWhile p = s := by
    cases s with
    | nil => rfl
    | cons a t =>
      rw [List.dropWhile_cons, if_neg]
      simp [hh a rfl]
  unfold stripEnds
  rw [h1]
  have h2 : s.reverse.dropWhile p = s.reverse := by
    cases hs : s.reverse with
    | nil => rfl
    | cons a t =>
      rw [List.dropWhile_cons, if_neg]
      have : s.getLast? = some a := by
        rw [← List.head?_reverse, hs]
        rfl
      simp [hl a this]
  rw [h2, List.reverse_reverse]

theorem chain'_of_chain'_mem {R S : Char → Char → Prop} :
    ∀ (l : List Char), (∀ a ∈ l, ∀ b ∈ l, R a b → S a b) →
      l.Chain' R → l.Chain' S := by
  intro l
  induction l with
  | nil => intro _ _; exact List.chain'_nil
  | cons a t ih =>
    intro h hc
    rw [List.chain'_cons'] at hc ⊢
    refine ⟨?_, ih (fun x hx y hy => h x (List.mem_cons_of_mem _ hx)
      y (List.mem_cons_of_mem _ hy)) hc.2⟩
    intro b hb
    exact h a (List.mem_cons_self _ _) b
      (List.mem_cons_of_mem _ (List.mem_of_mem_head? hb)) (hc.1 b hb)

/-! ### Character class facts -/

theorem char_eq_of_toNat {c d : Char} (h : c.toNat = d.toNat) : c = d :=
  Char.ext (UInt32.ext h)

theorem isWs_spec (c : Char) : isWs c = true ↔
    (c.toNat = 32 ∨ c.toNat = 9 ∨ c.toNat = 10 ∨ c.toNat = 13 ∨
     c.toNat = 11 ∨ c.toNat = 12) := by
  simp [isWs]
  tauto

theorem wsH_spec (c : Char) : wsH c = true ↔
    (c.toNat = 32 ∨ c.toNat = 9 ∨ c.toNat = 10 ∨ c.toNat = 13 ∨
     c.toNat = 11 ∨ c.toNat = 12 ∨ c.toNat = 45) := by
  simp [wsH, isWs]
  omega

theorem cleanStep4Keep_spec (c : Char) : cleanStep4Keep c = true ↔
    ((97 ≤ c.toNat ∧ c.toNat ≤ 122) ∨ (48 ≤ c.toNat ∧ c.toNat ≤ 57) ∨
     isWs c = true ∨ c.toNat = 45) := by
  simp [cleanStep4Keep]
  tauto

theorem eq_space_iff {c : Char} : c = ' ' ↔ c.toNat = 32 := by
  constructor
  · intro h
    rw [h]
    decide
  · intro h
    exact char_eq_of_toNat (by rw [h]; decide)

theorem goodCleanChar_toNat {c : Char} (h : goodCleanChar c) :
    (97 ≤ c.toNat ∧ c.toNat ≤ 122) ∨ (48 ≤ c.toNat ∧ c.toNat ≤ 57) ∨
      c.toNat = 32 := by
  rcases h with h | h | h
  · exact Or.inl h
  · exact Or.inr (Or.inl h)
  · exact Or.inr (Or.inr (by rw [h]; decide))

theorem goodCleanChar_wsH {c : Char} (h : goodCleanChar c) (hw : wsH c = true) :
    c = ' ' := by
  have h1 := goodCleanChar_toNat h
  have h2 := (wsH_spec c).mp hw
  exact eq_space_iff.mpr (by omega)

theorem goodCleanChar_not_isWs {c : Char} (h : goodCleanChar c) (hne : c ≠ ' ') :
    isWs c = false := by
  have h1 := goodCleanChar_toNat h
  cases hb : isWs c
  · rfl
  · exfalso
    have h2 := (isWs_spec c).mp hb
    exact hne (eq_space_iff.mpr (by omega))

theorem map_id_of_mem (l : List Char) (f : Char → Char)
    (h : ∀ c ∈ l, f c = c) : l.map f = l := by
  induction l with
  | nil => rfl
  | cons a t ih =>
    simp only [List.map_cons, h a (List.mem_cons_self a t),
      ih fun c hc => h c (List.mem_cons_of_mem _ hc)]

/-! ### Canonical form of clean_title_for_comparison -/

theorem cleanTitle_canonical (s : List Char) :
    canonicalC (cleanTitleForComparison s) := by
  have key : ∀ t : List Char,
      canonicalC (pyStrip (collapseRuns wsH ' ' (t.map cleanStep4Char))) := by
    intro t
    have hmid : ∀ c ∈ t.map cleanStep4Char, cleanStep4Keep c = true ∨ c = ' ' := by
      intro c hc
      rcases List.mem_map.mp hc with ⟨d, _, rfl⟩
      unfold cleanStep4Char
      split
      · left; assumption
      · right; rfl
    have hcol : ∀ c ∈ collapseRuns wsH ' ' (t.map cleanStep4Char),
        goodCleanChar c := by
      intro c hc
      rcases collapseRuns_mem wsH ' ' _ c hc with rfl | ⟨hmem, hp⟩
      · exact Or.inr (Or.inr rfl)
      · rcases hmid c hmem with hk | rfl
        · have h1 := (cleanStep4Keep_spec c).mp hk
          have h2 : ¬ wsH c = true := by simp [hp]
          rw [wsH_spec] at h2
          rcases h1 with h | h | hws | h45
          · exact Or.inl h
          · exact Or.inr (Or.inl h)
          · exfalso
            rw [isWs_spec] at hws
            exact h2 (by omega)
          · exact absurd (by omega :
              (c.toNat = 32 ∨ c.toNat = 9 ∨ c.toNat = 10 ∨ c.toNat = 13 ∨
               c.toNat = 11 ∨ c.toNat = 12 ∨ c.toNat = 45)) h2
        · exact Or.inr (Or.inr rfl)
    have hchain : (collapseRuns wsH ' ' (t.map cleanStep4Char)).Chain'
        (fun a b => ¬(a = ' ' ∧ b = ' ')) :=
      (collapseRuns_chain' wsH ' ' _).imp (fun a b hab hcon => hab
        ⟨by rw [hcon.1]; decide, by rw [hcon.2]; decide⟩)
    unfold pyStrip
    refine ⟨?_, ?_, ?_, ?_⟩
    · intro c hc
      exact hcol c (stripEnds_subset isWs _ c hc)
    · exact stripEnds_chain' (fun a b hab hcon => hab ⟨hcon.2, hcon.1⟩)
        isWs _ hchain
    · intro c hc hEq
      have h1 := stripEnds_head isWs _ c hc
      rw [hEq] at h1
      exact absurd h1 (by decide)
    · intro c hc hEq
      have h1 := stripEnds_getLast isWs _ c hc
      rw [hEq] at h1
      exact absurd h1 (by decide)
  exact key _

/-! ### clean_title_for_comparison is the identity on canonical keys -/

theorem cleanTitle_id {s : List Char} (h : canonicalC s) :
    cleanTitleForComparison s = s := by
  obtain ⟨hchars, hchain, hhead, hlast⟩ := h
  have hlower : pyLower s = s :=
    map_id_of_mem s lowerChar fun c hc => by
      have h1 := goodCleanChar_toNat (hchars c hc)
      exact lowerChar_fix (by omega)
  have hnodot : ∀ c ∈ s, c ≠ '.' := by
    intro c hc hEq
    have h1 := goodCleanChar_toNat (hchars c hc)
    rw [hEq] at h1
    revert h1
    decide
  have hnoparen : ∀ c ∈ s, c ≠ '(' ∧ c ≠ '[' := by
    intro c hc
    have h1 := goodCleanChar_toNat (hchars c hc)
    constructor <;> intro hEq <;> rw [hEq] at h1 <;> revert h1 <;> decide
  have hmap : s.map cleanStep4Char = s :=
    map_id_of_mem s cleanStep4Char fun c hc => by
      have hk : cleanStep4Keep c = true := by
        rw [cleanStep4Keep_spec]
        rcases hchars c hc with h1 | h1 | h1
        · exact Or.inl h1
        · exact Or.inr (Or.inl h1)
        · rw [h1]
          exact Or.inr (Or.inr (Or.inl (by decide)))
      unfold cleanStep4Char
      rw [if_pos hk]
  have hcoll : collapseRuns wsH ' ' s = s := by
    apply collapseRuns_id
    · intro c hc hw
      exact goodCleanChar_wsH (hchars c hc) hw
    · exact chain'_of_chain'_mem s (fun a ha b hb hR hcon =>
        hR ⟨goodCleanChar_wsH (hchars a ha) hcon.1,
            goodCleanChar_wsH (hchars b hb) hcon.2⟩) hchain
  have hstrip : pyStrip s = s := by
    unfold pyStrip
    apply stripEnds_id
    · intro c hc
      exact goodCleanChar_not_isWs
        (hchars c (List.mem_of_mem_head? (Option.mem_def.mpr hc))) (hhead c hc)
    · intro c hc
      exact goodCleanChar_not_isWs
        (hchars c (List.mem_of_mem_getLast? (Option.mem_def.mpr hc))) (hlast c hc)
  simp only [cleanTitleForComparison]
  rw [hlower, removeExt_id hnodot, subAll_id _ _ _ hnoparen,
    subAll_id _ _ _ hnoparen, subAll_id _ _ _ hnoparen,
    subAll_id _ _ _ hnoparen, hmap, hcoll, hstrip]

/-! ### Canonical form of normalize_text_for_comparison -/

theorem normalizeText_canonical (s : List Char) :
    canonicalN (normalizeTextForComparison s) := by
  have h1 : ∀ c ∈ pyLower s, lowerChar c = c := by
    intro c hc
    rcases List.mem_map.mp hc with ⟨d, _, rfl⟩
    exact lowerChar_idem d
  have h2 : ∀ c ∈ subAll (.noise normAlts) [] (pyLower s), lowerChar c = c := by
    intro c hc
    rcases subAll_subset _ _ _ c hc with hin | hrep
    · exact h1 c hin
    · simp at hrep
  have h3 : ∀ c ∈ (subAll (.noise normAlts) [] (pyLower s)).map
      (fun c => if punctN c then ' ' else c),
      lowerChar c = c ∧ punctN c = false := by
    intro c hc
    rcases List.mem_map.mp hc with ⟨d, hd, rfl⟩
    by_cases hp : punctN d = true
    · rw [if_pos hp]
      exact ⟨by decide, by decide⟩
    · rw [if_neg hp]
      exact ⟨h2 d hd, by simpa using hp⟩
  have h4 : ∀ c ∈ collapseRuns isWs ' '
      ((subAll (.noise normAlts) [] (pyLower s)).map
        (fun c => if punctN c then ' ' else c)),
      (lowerChar c = c ∧ punctN c = false) ∧ (isWs c = true → c = ' ') := by
    intro c hc
    rcases collapseRuns_mem isWs ' ' _ c hc with rfl | ⟨hmem, hws⟩
    · exact ⟨⟨by decide, by decide⟩, fun _ => rfl⟩
    · exact ⟨h3 c hmem, fun hw => absurd hw (by simp [hws])⟩
  have h5 : (collapseRuns isWs ' '
      ((subAll (.noise normAlts) [] (pyLower s)).map
        (fun c => if punctN c then ' ' else c))).Chain'
      (fun a b => ¬(isWs a = true ∧ isWs b = true)) :=
    collapseRuns_chain' isWs ' ' _
  simp only [normalizeTextForComparison, stripChars]
  refine ⟨?_, ?_, ?_, ?_, ?_, ?_⟩
  · intro c hc
    exact (h4 c (stripEnds_subset _ _ c hc)).1.1
  · intro c hc
    exact (h4 c (stripEnds_subset _ _ c hc)).1.2
  · intro c hc
    exact (h4 c (stripEnds_subset _ _ c hc)).2
  · exact stripEnds_chain' (fun a b hab hcon => hab ⟨hcon.2, hcon.1⟩) _ _ h5
  · intro c hc
    have hco := stripEnds_head _ _ c hc
    simp only at hco
    simpa using hco
  · intro c hc
    have hco := stripEnds_getLast _ _ c hc
    simpa using hco

/-! ### normalize_text_for_comparison is the identity on canonical keys -/

theorem normalizeText_id {s : List Char} (h : canonicalN s) :
    normalizeTextForComparison s = s := by
  obtain ⟨hlow, hpunct, hwsp, hchain, hhead, hlast⟩ := h
  have hlower : pyLower s = s := map_id_of_mem s lowerChar hlow
  have hnoparen : ∀ c ∈ s, c ≠ '(' ∧ c ≠ '[' := by
    intro c hc
    constructor <;> intro hEq <;> have := hpunct c hc <;> rw [hEq] at this <;>
      exact absurd this (by decide)
  have hmap : s.map (fun c => if punctN c then ' ' else c) = s :=
    map_id_of_mem s _ fun c hc => by
      rw [if_neg (by simp [hpunct c hc])]
  have hcoll : collapseRuns isWs ' ' s = s :=
    collapseRuns_id isWs ' ' s hwsp hchain
  have hstrip : stripEnds ([' ', '-'] : List Char).contains s = s := by
    apply stripEnds_id
    · intro c hc
      have := hhead c hc
      simp [this.1, this.2]
    · intro c hc
      have := hlast c hc
      simp [this.1, this.2]
  simp only [normalizeTextForComparison, stripChars]
  rw [hlower, subAll_id _ _ _ hnoparen, hmap, hcoll, hstrip]

/-- C1: normalization is idempotent — for every string `s`, both
`clean_title_for_comparison` and `normalize_text_for_comparison` satisfy
`normalize (normalize s) = normalize s`. -/
theorem c1_normalization_idempotent (s : List Char) :
    cleanTitleForComparison (cleanTitleForComparison s)
      = cleanTitleForComparison s ∧
    normalizeTextForComparison (normalizeTextForComparison s)
      = normalizeTextForComparison s :=
  ⟨cleanTitle_id (cleanTitle_canonical s),
   normalizeText_id (normalizeText_canonical s)⟩

/-! ### Position-count characterization of findsimilarity -/

theorem countIdentical_eq_posMatches :
    ∀ (o m : List Char), countIdentical o m = posMatches o m := by
  intro o
  induction o with
  | nil =>
    intro m
    have h0 : countIdentical [] m = 0 := by cases m <;> rfl
    rw [h0]
    symm
    apply List.countP_eq_zero.mpr
    intro i _
    simp [List.getElem?_nil]
  | cons a o' ih =>
    intro m
    cases m with
    | nil =>
      have h0 : countIdentical (a :: o') [] = 0 := rfl
      rw [h0]
      symm
      apply List.countP_eq_zero.mpr
      intro i _
      cases hix : (a :: o')[i]? <;> simp [List.getElem?_nil]
    | cons b m' =>
      show (if a = b then 1 else 0) + countIdentical o' m' = _
      unfold posMatches
      rw [List.length_cons, List.length_cons, Nat.succ_max_succ,
        List.range_succ_eq_map, List.countP_cons, List.countP_map]
      have hpred : List.countP
          ((fun i => match (a :: o')[i]?, (b :: m')[i]? with
            | some x, some y => x == y
            | _, _ => false) ∘ Nat.succ)
          (List.range (o'.length ⊔ m'.length))
          = List.countP
          (fun i => match o'[i]?, m'[i]? with
            | some x, some y => x == y
            | _, _ => false)
          (List.range (o'.length ⊔ m'.length)) := by
        apply List.countP_congr
        intro i _
        show (match (a :: o')[i + 1]?, (b :: m')[i + 1]? with
          | some x, some y => x == y
          | _, _ => false) = true ↔
          (match o'[i]?, m'[i]? with
          | some x, some y => x == y
          | _, _ => false) = true
        rw [List.getElem?_cons_succ, List.getElem?_cons_succ]
      rw [hpred, ih m']
      unfold posMatches
      simp only [List.getElem?_cons_zero]
      by_cases hab : a = b
      · simp [hab, Nat.add_comm]
      · simp [hab]

/-- C3: the positional score pairs characters by index (positions past the
shorter string count as non-matches), divides the match count by the
original's length and multiplies by 100; in particular `score(s, s) = 100`
for every nonempty `s`. -/
theorem c3_positional_score (orig cand : List Char) (h : orig ≠ []) :
    findsimilarity orig cand
      = some (pyRound ((posMatches orig cand : ℚ) / (orig.length : ℚ) * 100),
          cand)
    ∧ findsimilarity orig orig = some (100, orig) := by
  have hlen : orig.length ≠ 0 := by
    have := List.length_pos.mpr h
    omega
  constructor
  · unfold findsimilarity
    rw [if_neg hlen]
    unfold simscore
    rw [countIdentical_eq_posMatches]
  · exact findsimilarity_self orig h

theorem c3_positional_score_witness :
    (['a', 'b'] : List Char) ≠ [] ∧
    (findsimilarity ['a', 'b'] ['a', 'c']
        = some (pyRound ((posMatches ['a', 'b'] ['a', 'c'] : ℚ)
            / ((['a', 'b'] : List Char).length : ℚ) * 100), ['a', 'c'])
      ∧ findsimilarity ['a', 'b'] ['a', 'b'] = some (100, ['a', 'b'])) :=
  ⟨by decide, c3_positional_score ['a', 'b'] ['a', 'c'] (by decide)⟩

/-- C2 counterexample: neither normalization function strips diacritics,
so the accented and unaccented variants of "cafe" normalize to different
canonical keys. -/
theorem c2_counterexample :
    cleanTitleForComparison "café".data ≠ cleanTitleForComparison "cafe".data ∧
    normalizeTextForComparison "café".data
      ≠ normalizeTextForComparison "cafe".data := by
  decide

/-- C2 amended: normalization does not strip diacritics —
`clean_title_for_comparison` replaces an accented character by a space
(`café` becomes `caf`) and `normalize_text_for_comparison` leaves it in
place (`café` stays `café`), so accented and unaccented variants get
different keys. -/
theorem c2_diacritics_amended :
    cleanTitleForComparison "café".data = "caf".data ∧
    cleanTitleForComparison "cafe".data = "cafe".data ∧
    normalizeTextForComparison "café".data = "café".data ∧
    normalizeTextForComparison "cafe".data = "cafe".data := by
  decide

/-- C4 counterexample: the positional score with an empty original raises a
`ZeroDivisionError` (modelled `none`) instead of returning the score 0. -/
theorem c4_counterexample :
    findsimilarity [] ['a'] = none ∧
    findsimilarity [] ['a'] ≠ some (0, ['a']) := by
  decide

/-- C4 amended: the token-overlap path never divides by zero — an empty
query is skipped by the `if yt_words` guard and simply not lenient-matched —
but the positional score with an empty original raises `ZeroDivisionError`
(modelled as `none`) rather than returning 0; it is defined exactly on
nonempty originals. -/
theorem c4_zero_length_amended (m : List Char) (refs : List (List Char))
    (o c : List Char) (ho : o ≠ []) :
    findsimilarity [] m = none ∧
    foundLenient [] refs = false ∧
    findsimilarity o c = some (simscore o c, c) := by
  refine ⟨rfl, ?_, ?_⟩
  · unfold foundLenient
    rw [if_pos (by decide)]
  · unfold findsimilarity
    rw [if_neg]
    have := List.length_pos.mpr ho
    omega

theorem c4_zero_length_amended_witness :
    (['x'] : List Char) ≠ [] ∧
    (findsimilarity [] ['m'] = none ∧
     foundLenient [] [['r']] = false ∧
     findsimilarity ['x'] ['y'] = some (simscore ['x'] ['y'], ['y'])) :=
  ⟨by decide, c4_zero_length_amended ['m'] [['r']] ['x'] ['y'] (by decide)⟩

/-- C5 counterexample: `a.b` and `a b` normalize to the same canonical key
under both normalizers, yet the positional score of the raw strings is 67,
not the maximum 100. -/
theorem c5_counterexample :
    cleanTitleForComparison "a.b".data = cleanTitleForComparison "a b".data ∧
    normalizeTextForComparison "a.b".data
      = normalizeTextForComparison "a b".data ∧
    findsimilarity "a.b".data "a b".data = some (67, "a b".data) ∧
    (67 : ℤ) ≠ 100 := by
  refine ⟨by decide, by decide, ?_, by decide⟩
  unfold findsimilarity
  rw [if_neg (by decide), simscore_eq _ _ (by decide)]
  decide

theorem tokensF_ne_empty {s : List Char} (hne : s ≠ [])
    (hws : ∀ c, s.head? = some c → isWs c = false) : tokensF s ≠ ∅ := by
  cases s with
  | nil => exact absurd rfl hne
  | cons c r =>
    have hc : isWs c = false := hws c rfl
    unfold tokensF pySplit
    rw [List.length_cons]
    rw [pySplitF, if_neg (by simp [hc])]
    simp

theorem overlapScore_self {W : Finset (List Char)} (h : W ≠ ∅) :
    overlapScore W W = 1 := by
  unfold overlapScore
  rw [Finset.inter_self]
  have hcard : (W.card : ℚ) ≠ 0 := by
    exact_mod_cast Finset.card_ne_zero.mpr (Finset.nonempty_iff_ne_empty.mpr h)
  field_simp

/-- C5 amended: two strings with the same nonempty canonical key score at
the maximum when their canonical keys are compared — token overlap 1 and
positional score 100 — although the positional score of the raw strings
need not be maximal. -/
theorem c5_same_key_scores_amended (s₁ s₂ : List Char)
    (hk : normalizeTextForComparison s₁ = normalizeTextForComparison s₂)
    (hne : normalizeTextForComparison s₁ ≠ []) :
    overlapScore (tokensF (normalizeTextForComparison s₁))
        (tokensF (normalizeTextForComparison s₂)) = 1 ∧
    findsimilarity (normalizeTextForComparison s₁)
        (normalizeTextForComparison s₂)
      = some (100, normalizeTextForComparison s₂) := by
  rw [← hk]
  have hcanon := normalizeText_canonical s₁
  have hws : ∀ c, (normalizeTextForComparison s₁).head? = some c →
      isWs c = false := by
    intro c hc
    rcases hcanon with ⟨_, _, hwsp, _, hhd, _⟩
    cases hb : isWs c
    · rfl
    · exact absurd (hwsp c (List.mem_of_mem_head? (Option.mem_def.mpr hc)) hb)
        (hhd c hc).1
  exact ⟨overlapScore_self (tokensF_ne_empty hne hws),
    findsimilarity_self _ hne⟩

theorem c5_same_key_scores_amended_witness :
    (normalizeTextForComparison "a.b".data
        = normalizeTextForComparison "a b".data ∧
     normalizeTextForComparison "a.b".data ≠ []) ∧
    (overlapScore (tokensF (normalizeTextForComparison "a.b".data))
        (tokensF (normalizeTextForComparison "a b".data)) = 1 ∧
     findsimilarity (normalizeTextForComparison "a.b".data)
        (normalizeTextForComparison "a b".data)
      = some (100, normalizeTextForComparison "a b".data)) :=
  ⟨⟨by decide, by decide⟩,
   c5_same_key_scores_amended "a.b".data "a b".data (by decide) (by decide)⟩

/-- C9 counterexample: the normalization noise rule strips a bracketed
`audio` phrase, but `clean_display_title` keeps it — its vocabulary has no
`audio` alternative — refuting the claimed "removes iff" correspondence. -/
theorem c9_counterexample :
    cleanTitleForComparison "Song (Audio)".data = "song".data ∧
    subAll (.noise cleanAlts) [' '] "song (audio)".data = "song ".data ∧
    cleanDisplayTitle "Song (Audio)".data = "Song (Audio)".data ∧
    subAll (.noise displayAlts) [] "Song (Audio)".data
      = "Song (Audio)".data := by
  decide

/-- C9 amended: display-title cleaning strips the normalization noise
vocabulary except `audio` — each of video / lyric(s) / visualizer /
music video / hd / hq, optionally prefixed by `official`, is stripped by both
transforms, while bracketed `audio` phrases are stripped only by
normalization and are kept in the display title. -/
theorem c9_display_vocab_amended :
    (sharedVocab.all fun w =>
      (cleanDisplayTitle ("Song (" ++ w ++ ")").data == "Song".data) &&
      (cleanDisplayTitle ("Song (Official " ++ w ++ ")").data
        == "Song".data) &&
      (cleanTitleForComparison ("song (" ++ w ++ ")").data == "song".data) &&
      (cleanTitleForComparison ("song (official " ++ w ++ ")").data
        == "song".data)) = true ∧
    cleanDisplayTitle "Song (Audio)".data = "Song (Audio)".data ∧
    cleanDisplayTitle "Song (Official Audio)".data
      = "Song (Official Audio)".data ∧
    cleanTitleForComparison "song (audio)".data = "song".data ∧
    cleanTitleForComparison "song (official audio)".data = "song".data := by
  decide

/-! ### Sanitizer properties (C8) -/

/-- C8: the sanitized filename contains no apostrophe, no ampersand and no
two adjacent underscores; it starts with an underscore exactly when the
original title does (that leading underscore is re-attached after trimming),
and it can end with an underscore only in the degenerate case where the
whole output is that single leading underscore. -/
theorem c8_sanitize_filename (title : List Char) :
    (Char.ofNat 39) ∉ sanitizeFilenameForPath title ∧
    '&' ∉ sanitizeFilenameForPath title ∧
    (sanitizeFilenameForPath title).Chain' (fun a b => ¬(a = '_' ∧ b = '_')) ∧
    ((sanitizeFilenameForPath title).head? = some '_' ↔
      title.head? = some '_') ∧
    ((sanitizeFilenameForPath title).getLast? = some '_' →
      sanitizeFilenameForPath title = ['_']) := by
  set s1 := title.map (fun c => if badPathChars.contains c then '_' else c)
    with hs1def
  set s2 := collapseRuns (fun c => c = '_') '_' s1 with hs2def
  set s3 := stripChars [' ', '_'] s2 with hs3def
  have hout : sanitizeFilenameForPath title =
      if title.head? = some '_' ∧ s3.head? ≠ some '_' then '_' :: s3 else s3 :=
    rfl
  have h1chars : ∀ c ∈ s1, c ≠ Char.ofNat 39 ∧ c ≠ '&' := by
    intro c hc
    rw [hs1def] at hc
    rcases List.mem_map.mp hc with ⟨d, _, rfl⟩
    by_cases hb : badPathChars.contains d = true
    · rw [if_pos hb]
      exact ⟨by decide, by decide⟩
    · rw [if_neg hb]
      constructor <;> intro hEq <;> rw [hEq] at hb <;> exact hb (by decide)
  have h2chars : ∀ c ∈ s2, c ≠ Char.ofNat 39 ∧ c ≠ '&' := by
    intro c hc
    rw [hs2def] at hc
    rcases collapseRuns_mem _ _ _ c hc with rfl | ⟨hmem, _⟩
    · exact ⟨by decide, by decide⟩
    · exact h1chars c hmem
  have h3chars : ∀ c ∈ s3, c ≠ Char.ofNat 39 ∧ c ≠ '&' := by
    intro c hc
    rw [hs3def] at hc
    exact h2chars c (stripEnds_subset _ _ c hc)
  have h3head : ∀ c, s3.head? = some c → c ≠ ' ' ∧ c ≠ '_' := by
    intro c hc
    have hc' : (stripEnds ([' ', '_'] : List Char).contains s2).head? = some c :=
      hc
    have := stripEnds_head _ _ c hc'
    simpa using this
  have h3last : ∀ c, s3.getLast? = some c → c ≠ ' ' ∧ c ≠ '_' := by
    intro c hc
    have hc' : (stripEnds ([' ', '_'] : List Char).contains s2).getLast?
        = some c := hc
    have := stripEnds_getLast _ _ c hc'
    simpa using this
  have h2chain : s2.Chain' (fun a b => ¬(a = '_' ∧ b = '_')) := by
    rw [hs2def]
    exact (collapseRuns_chain' _ '_' s1).imp fun a b hab hcon =>
      hab ⟨by simp [hcon.1], by simp [hcon.2]⟩
  have h3chain : s3.Chain' (fun a b => ¬(a = '_' ∧ b = '_')) := by
    rw [hs3def]
    exact stripEnds_chain' (fun a b hab hcon => hab ⟨hcon.2, hcon.1⟩) _ _ h2chain
  rw [hout]
  by_cases hcase : title.head? = some '_' ∧ s3.head? ≠ some '_'
  · rw [if_pos hcase]
    refine ⟨?_, ?_, ?_, ?_, ?_⟩
    · intro hmem
      rcases List.mem_cons.mp hmem with hEq | hmem'
      · exact absurd hEq (by decide)
      · exact (h3chars _ hmem').1 rfl
    · intro hmem
      rcases List.mem_cons.mp hmem with hEq | hmem'
      · exact absurd hEq (by decide)
      · exact (h3chars _ hmem').2 rfl
    · rw [List.chain'_cons']
      refine ⟨?_, h3chain⟩
      intro y hy hcon
      exact (h3head y (Option.mem_def.mp hy)).2 hcon.2
    · simp [hcase.1]
    · intro hlastEq
      cases hs3 : s3 with
      | nil => rfl
      | cons y t =>
        exfalso
        rw [hs3, List.getLast?_cons_cons] at hlastEq
        exact (h3last '_' (by rw [hs3]; exact hlastEq)).2 rfl
  · rw [if_neg hcase]
    have hs3h : s3.head? ≠ some '_' := fun hEq => (h3head '_' hEq).2 rfl
    have htitle : title.head? ≠ some '_' := fun ht => hcase ⟨ht, hs3h⟩
    refine ⟨?_, ?_, h3chain, ?_, ?_⟩
    · intro hmem
      exact (h3chars _ hmem).1 rfl
    · intro hmem
      exact (h3chars _ hmem).2 rfl
    · constructor
      · intro h'
        exact absurd h' hs3h
      · intro h'
        exact absurd h' htitle
    · intro hlastEq
      exact absurd rfl (h3last '_' hlastEq).2

theorem c8_sanitize_filename_witness :
    (Char.ofNat 39) ∉ sanitizeFilenameForPath ['D', 'o', 'n', Char.ofNat 39, 't'] ∧
    '&' ∉ sanitizeFilenameForPath ['D', 'o', 'n', Char.ofNat 39, 't'] ∧
    (sanitizeFilenameForPath ['D', 'o', 'n', Char.ofNat 39, 't']).Chain'
      (fun a b => ¬(a = '_' ∧ b = '_')) ∧
    ((sanitizeFilenameForPath ['D', 'o', 'n', Char.ofNat 39, 't']).head?
        = some '_' ↔
      (['D', 'o', 'n', Char.ofNat 39, 't'] : List Char).head? = some '_') ∧
    ((sanitizeFilenameForPath ['D', 'o', 'n', Char.ofNat 39, 't']).getLast?
        = some '_' →
      sanitizeFilenameForPath ['D', 'o', 'n', Char.ofNat 39, 't'] = ['_']) :=
  c8_sanitize_filename ['D', 'o', 'n', Char.ofNat 39, 't']

/-! ### M3U parsing map properties (C10) -/

theorem m3uStep_preserves {acc : List (List Char × List Char)} {l : List Char}
    (h : ∀ kp ∈ acc, kp.1 ≠ []) : ∀ kp ∈ m3uStep acc l, kp.1 ≠ [] := by
  intro kp hkp
  simp only [m3uStep] at hkp
  split at hkp
  · exact h kp hkp
  split at hkp
  · exact h kp hkp
  split at hkp
  · exact h kp hkp
  split at hkp
  · rename_i hcond
    rcases List.mem_append.mp hkp with hin | hnew
    · exact h kp hin
    · have := List.mem_singleton.mp hnew
      subst this
      exact hcond.1
  · exact h kp hkp

theorem m3uStep_provenance {acc : List (List Char × List Char)}
    {l : List Char} :
    ∀ kp ∈ m3uStep acc l, kp ∈ acc ∨
      (kp.1 = normalizeTextForComparison (pathBasename (slashNorm (pyStrip l)))
        ∧ kp.2 = slashNorm (pyStrip l)) := by
  intro kp hkp
  simp only [m3uStep] at hkp
  split at hkp
  · exact Or.inl hkp
  split at hkp
  · exact Or.inl hkp
  split at hkp
  · exact Or.inl hkp
  split at hkp
  · rcases List.mem_append.mp hkp with hin | hnew
    · exact Or.inl hin
    · have := List.mem_singleton.mp hnew
      subst this
      exact Or.inr ⟨rfl, rfl⟩
  · exact Or.inl hkp

theorem lookup_append_some {k p : List Char}
    {l₁ l₂ : List (List Char × List Char)}
    (h : List.lookup k l₁ = some p) :
    List.lookup k (l₁ ++ l₂) = some p := by
  induction l₁ with
  | nil => simp [List.lookup] at h
  | cons a t ih =>
    rw [List.cons_append]
    rw [List.lookup] at h ⊢
    split at h
    · exact h
    · exact ih h

theorem m3uStep_lookup_stable {acc : List (List Char × List Char)}
    {l : List Char} {k p : List Char} (h : List.lookup k acc = some p) :
    List.lookup k (m3uStep acc l) = some p := by
  simp only [m3uStep]
  split
  · exact h
  split
  · exact h
  split
  · exact h
  split
  · exact lookup_append_some h
  · exact h

theorem foldl_lookup_stable (k p : List Char) :
    ∀ (extra : List (List Char)) (acc : List (List Char × List Char)),
      List.lookup k acc = some p →
      List.lookup k (extra.foldl m3uStep acc) = some p := by
  intro extra
  induction extra with
  | nil => intro acc h; exact h
  | cons l ls ih =>
    intro acc h
    exact ih _ (m3uStep_lookup_stable h)

theorem foldl_keys_ne_nil :
    ∀ (lines : List (List Char)) (acc : List (List Char × List Char)),
      (∀ kp ∈ acc, kp.1 ≠ []) →
      ∀ kp ∈ lines.foldl m3uStep acc, kp.1 ≠ [] := by
  intro lines
  induction lines with
  | nil => intro acc h kp hkp; exact h kp hkp
  | cons l ls ih =>
    intro acc h kp hkp
    exact ih (m3uStep acc l) (m3uStep_preserves h) kp hkp

theorem foldl_provenance :
    ∀ (lines : List (List Char)) (acc : List (List Char × List Char)),
      ∀ kp ∈ lines.foldl m3uStep acc, kp ∈ acc ∨
        ∃ line ∈ lines,
          kp.1 = normalizeTextForComparison
            (pathBasename (slashNorm (pyStrip line))) ∧
          kp.2 = slashNorm (pyStrip line) := by
  intro lines
  induction lines with
  | nil => intro acc kp hkp; exact Or.inl hkp
  | cons l ls ih =>
    intro acc kp hkp
    rcases ih (m3uStep acc l) kp hkp with hstep | ⟨line, hline, hk⟩
    · rcases m3uStep_provenance kp hstep with hin | hk
      · exact Or.inl hin
      · exact Or.inr ⟨l, List.mem_cons_self _ _, hk⟩
    · exact Or.inr ⟨line, List.mem_cons_of_mem _ hline, hk⟩

/-- C10: every key of the local-library map is a nonempty normalized
filename derived from one of the input path lines, and a binding, once
made, survives any later lines: the first occurrence of a normalized
filename wins. -/
theorem c10_local_map_first_binding (lines : List (List Char)) :
    (∀ kp ∈ parseMusicoletM3U lines, kp.1 ≠ [] ∧
      ∃ line ∈ lines,
        kp.1 = normalizeTextForComparison
          (pathBasename (slashNorm (pyStrip line))) ∧
        kp.2 = slashNorm (pyStrip line)) ∧
    (∀ (extra : List (List Char)) (k p : List Char),
      List.lookup k (parseMusicoletM3U lines) = some p →
      List.lookup k (parseMusicoletM3U (lines ++ extra)) = some p) := by
  constructor
  · intro kp hkp
    refine ⟨foldl_keys_ne_nil lines [] (by simp) kp hkp, ?_⟩
    rcases foldl_provenance lines [] kp hkp with hin | h
    · simp at hin
    · exact h
  · intro extra k p h
    unfold parseMusicoletM3U
    rw [List.foldl_append]
    exact foldl_lookup_stable k p extra _ h

theorem c10_local_map_first_binding_witness :
    List.lookup "b mp3".data
      (parseMusicoletM3U (["a/b.mp3".data] ++ ["c/b.mp3".data]))
      = some "a/b.mp3".data :=
  (c10_local_map_first_binding ["a/b.mp3".data]).2 ["c/b.mp3".data]
    "b mp3".data "a/b.mp3".data (by decide)

/-! ### Best-of-all scan (C7) -/

theorem findsimilarity_of_ne {orig : List Char} (h : orig ≠ []) (m : List Char) :
    findsimilarity orig m = some (simscore orig m, m) := by
  unfold findsimilarity
  rw [if_neg]
  have := List.length_pos.mpr h
  omega

theorem bestFold_spec (orig : List Char) (h : orig ≠ []) :
    ∀ (refs : List (List Char)) (st : ℤ × List Char),
      ∃ b : ℤ × List Char, refs.foldl (bestStep orig) (some st) = some b ∧
        st.1 ≤ b.1 ∧ (∀ m ∈ refs, simscore orig m ≤ b.1) ∧
        (b = st ∨ ∃ m ∈ refs, b = (simscore orig m, m)) := by
  intro refs
  induction refs with
  | nil =>
    intro st
    exact ⟨st, rfl, le_refl _, by simp, Or.inl rfl⟩
  | cons m ms ih =>
    intro st
    have hstep : bestStep orig (some st) m =
        some (if st.1 < simscore orig m then (simscore orig m, m) else st) := by
      simp only [bestStep, findsimilarity_of_ne h m]
      split <;> rfl
    rw [List.foldl_cons, hstep]
    rcases ih (if st.1 < simscore orig m then (simscore orig m, m) else st) with
      ⟨b, hb, hle, hall, hsrc⟩
    refine ⟨b, hb, ?_, ?_, ?_⟩
    · refine le_trans ?_ hle
      split
      · rename_i hlt
        exact le_of_lt hlt
      · exact le_refl _
    · intro x hx
      rcases List.mem_cons.mp hx with rfl | hx'
      · refine le_trans ?_ hle
        split
        · exact le_refl _
        · rename_i hnlt
          omega
      · exact hall x hx'
    · rcases hsrc with hb' | ⟨x, hx, hbx⟩
      · by_cases hlt : st.1 < simscore orig m
        · exact Or.inr ⟨m, List.mem_cons_self _ _, by rw [hb', if_pos hlt]⟩
        · exact Or.inl (by rw [hb', if_neg hlt])
      · exact Or.inr ⟨x, List.mem_cons_of_mem _ hx, hbx⟩

/-- C7: the best-of-all scan returns the maximum score over the reference
collection together with its source (or keeps the initial `[0, ""]` when no
reference beats it), and on ties the first-seen maximum wins — appending a
reference whose score does not exceed the current best leaves the result,
including its source, unchanged. -/
theorem c7_best_of_all_ties (orig : List Char) (refs : List (List Char))
    (h : orig ≠ []) :
    ∃ b : ℤ × List Char, bestOf orig refs = some b ∧
      (∀ m ∈ refs, simscore orig m ≤ b.1) ∧
      (b = (0, []) ∨ ∃ m ∈ refs, b = (simscore orig m, m)) ∧
      (∀ y, simscore orig y ≤ b.1 → bestOf orig (refs ++ [y]) = some b) := by
  rcases bestFold_spec orig h refs (0, []) with ⟨b, hb, _, hall, hsrc⟩
  refine ⟨b, hb, hall, hsrc, ?_⟩
  intro y hy
  unfold bestOf
  rw [List.foldl_append]
  have hb' : refs.foldl (bestStep orig) (some (0, [])) = some b := hb
  rw [hb']
  simp only [List.foldl_cons, List.foldl_nil, bestStep,
    findsimilarity_of_ne h y]
  rw [if_neg (by omega : ¬ b.1 < simscore orig y)]

theorem c7_best_of_all_ties_witness :
    (['a'] : List Char) ≠ [] ∧
    (∃ b : ℤ × List Char, bestOf ['a'] [['a']] = some b ∧
      (∀ m ∈ [['a']], simscore ['a'] m ≤ b.1) ∧
      (b = (0, []) ∨ ∃ m ∈ [['a']], b = (simscore ['a'] m, m)) ∧
      (∀ y, simscore ['a'] y ≤ b.1 →
        bestOf ['a'] ([['a']] ++ [y]) = some b)) :=
  ⟨by decide, c7_best_of_all_ties ['a'] [['a']] (by decide)⟩

/-! ### Exact-then-lenient matcher (C6) -/

theorem lenientFold_ne_none (qW : Finset (List Char)) :
    ∀ (m : List (List Char × List Char)) (st : ℚ × Option (List Char)),
      st.2 ≠ none → (lenientFoldAux qW m st).2 ≠ none := by
  intro m
  induction m with
  | nil => intro st h; exact h
  | cons kp rest ih =>
    intro st h
    rw [lenientFoldAux]
    apply ih
    by_cases ht : tokensF kp.1 = ∅
    · rw [if_neg (not_not_intro ht)]
      exact h
    · rw [if_pos ht]
      by_cases hacc : 7/10 ≤ overlapScore qW (tokensF kp.1) ∧
          st.1 < overlapScore qW (tokensF kp.1)
      · rw [if_pos hacc]
        simp
      · rw [if_neg hacc]
        exact h

theorem lenientFold_none_iff (qW : Finset (List Char)) :
    ∀ (m : List (List Char × List Char)) (b : ℚ), b < 7/10 →
      ((lenientFoldAux qW m (b, none)).2 = none ↔
        ∀ kp ∈ m, tokensF kp.1 = ∅ ∨
          overlapScore qW (tokensF kp.1) < 7/10) := by
  intro m
  induction m with
  | nil =>
    intro b _
    simp [lenientFoldAux]
  | cons kp rest ih =>
    intro b hb
    rw [lenientFoldAux]
    by_cases ht : tokensF kp.1 = ∅
    · rw [if_neg (not_not_intro ht)]
      rw [ih b hb]
      simp only [List.forall_mem_cons]
      constructor
      · intro h'
        exact ⟨Or.inl ht, h'⟩
      · intro h'
        exact h'.2
    · rw [if_pos ht]
      by_cases hacc : 7/10 ≤ overlapScore qW (tokensF kp.1) ∧
          b < overlapScore qW (tokensF kp.1)
      · rw [if_pos hacc]
        constructor
        · intro h'
          exact absurd h' (lenientFold_ne_none qW rest _ (by simp))
        · intro h'
          rcases h' kp (List.mem_cons_self _ _) with h0 | h0
          · exact absurd h0 ht
          · exact absurd h0 (not_lt.mpr hacc.1)
      · rw [if_neg hacc]
        have hsc : overlapScore qW (tokensF kp.1) < 7/10 := by
          by_contra hge
          push_neg at hge
          exact hacc ⟨hge, lt_of_lt_of_le hb hge⟩
        rw [ih b hb]
        simp only [List.forall_mem_cons]
        constructor
        · intro h'
          exact ⟨Or.inr hsc, h'⟩
        · intro h'
          exact h'.2

theorem lenientFold_some (qW : Finset (List Char)) :
    ∀ (m : List (List Char × List Char)) (st : ℚ × Option (List Char))
      (p : List Char),
      (lenientFoldAux qW m st).2 = some p → st.2 = some p ∨
        ∃ kp ∈ m, kp.2 = p ∧ tokensF kp.1 ≠ ∅ ∧
          7/10 ≤ overlapScore qW (tokensF kp.1) := by
  intro m
  induction m with
  | nil =>
    intro st p h
    exact Or.inl h
  | cons kp rest ih =>
    intro st p h
    rw [lenientFoldAux] at h
    by_cases ht : tokensF kp.1 = ∅
    · rw [if_neg (not_not_intro ht)] at h
      rcases ih st p h with h' | ⟨kp', hkp', hrest⟩
      · exact Or.inl h'
      · exact Or.inr ⟨kp', List.mem_cons_of_mem _ hkp', hrest⟩
    · rw [if_pos ht] at h
      by_cases hacc : 7/10 ≤ overlapScore qW (tokensF kp.1) ∧
          st.1 < overlapScore qW (tokensF kp.1)
      · rw [if_pos hacc] at h
        rcases ih _ p h with h' | ⟨kp', hkp', hrest⟩
        · have hp : kp.2 = p := by simpa using h'
          exact Or.inr ⟨kp, List.mem_cons_self _ _, hp, ht, hacc.1⟩
        · exact Or.inr ⟨kp', List.mem_cons_of_mem _ hkp', hrest⟩
      · rw [if_neg hacc] at h
        rcases ih st p h with h' | ⟨kp', hkp', hrest⟩
        · exact Or.inl h'
        · exact Or.inr ⟨kp', List.mem_cons_of_mem _ hkp', hrest⟩

/-- C6: the matcher of `generate_m3u_playlist_with_matching` first attempts
an exact canonical-key lookup; on a miss it scans with the token-overlap
score (relative to the query's token set) at threshold 0.7 — any returned
fallback candidate clears the threshold, and the query is unmatched exactly
when no candidate does (or the query has no tokens). -/
theorem c6_exact_then_lenient (yt : List Char)
    (m : List (List Char × List Char)) :
    (∀ p, List.lookup yt m = some p → matchQuery yt m = some p) ∧
    (List.lookup yt m = none →
      ((∀ p, matchQuery yt m = some p →
          ∃ kp ∈ m, kp.2 = p ∧ tokensF kp.1 ≠ ∅ ∧
            (7 : ℚ)/10 ≤ overlapScore (tokensF yt) (tokensF kp.1)) ∧
       (matchQuery yt m = none ↔
          (tokensF yt = ∅ ∨ ∀ kp ∈ m, tokensF kp.1 = ∅ ∨
            overlapScore (tokensF yt) (tokensF kp.1) < 7/10)))) := by
  constructor
  · intro p hp
    simp only [matchQuery, hp]
  · intro hnone
    simp only [matchQuery, hnone]
    refine ⟨?_, ?_⟩
    · intro p hp
      by_cases hq : tokensF yt = ∅
      · rw [if_pos hq] at hp
        exact absurd hp (by simp)
      · rw [if_neg hq] at hp
        rcases lenientFold_some (tokensF yt) m _ p hp with h0 | h'
        · simp at h0
        · exact h'
    · by_cases hq : tokensF yt = ∅
      · rw [if_pos hq]
        simp [hq]
      · rw [if_neg hq]
        rw [lenientFold_none_iff (tokensF yt) m 0 (by norm_num)]
        constructor
        · intro h'
          exact Or.inr h'
        · rintro (h' | h')
          · exact absurd h' hq
          · exact h'

theorem c6_exact_then_lenient_witness :
    matchQuery "a b".data [("a b".data, "P".data)] = some "P".data :=
  (c6_exact_then_lenient "a b".data [("a b".data, "P".data)]).1
    "P".data (by decide)

end YTM
